import Mathlib

/-!
Verification of the static search tree (Go implementation, `main.go`).

Strings are modelled as lists of characters (`List Char`), ordered by the
lexicographic order on codepoints, which agrees with Go's byte order on
UTF-8 strings.  Case folding (`strings.ToLower` / `strings.ToUpper`, i.e.
Unicode simple case mapping) is modelled on an explicitly declared finite
character set — the ASCII letters, the Latin-1 pair É/é, the Latin small
letter long s ſ (U+017F, upper-cased by Go to S) and the Kelvin sign
(U+212A, lower-cased by Go to k) — on which the model's tables agree with
Go's, and which is closed under both foldings; characters outside this set
are left fixed (Go folds further letters, which the model does not cover).
This set is large enough to exhibit the failure of round-tripping through
`ToUpper` (ſ) while keeping the model's `ToLower` idempotent, as Go's
simple lower-casing is on all of Unicode.  The Go `map[string][]string` is
modelled as an association list with insert-or-replace semantics; Go map
iteration order is never observed by the functions verified here.
-/

namespace StaticSearch

/-- A Go string, modelled as its sequence of characters. -/
abbrev Str := List Char

/-- Convert a Lean string literal to the model type. -/
def strOf (s : String) : Str := s.toList

/-- Go `unicode.ToLower` (simple case mapping), on the modelled character set:
A–Z shift to a–z, É (U+00C9, code 201) lowers to é (U+00E9, code 233), and the
Kelvin sign (U+212A, code 8490) lowers to k (code 107); other modelled
characters are fixed points of Go's mapping. -/
def goLowerChar (c : Char) : Char :=
  if 65 ≤ c.toNat ∧ c.toNat ≤ 90 then Char.ofNat (c.toNat + 32)
  else if c.toNat = 201 then Char.ofNat 233
  else if c.toNat = 8490 then Char.ofNat 107
  else c

/-- Go `unicode.ToUpper` (simple case mapping), on the modelled character set:
a–z shift to A–Z, é (U+00E9, code 233) uppers to É (U+00C9, code 201), and the
long s ſ (U+017F, code 383) uppers to S (code 83); other modelled characters
are fixed points of Go's mapping. -/
def goUpperChar (c : Char) : Char :=
  if 97 ≤ c.toNat ∧ c.toNat ≤ 122 then Char.ofNat (c.toNat - 32)
  else if c.toNat = 233 then Char.ofNat 201
  else if c.toNat = 383 then Char.ofNat 83
  else c

/-- Go `strings.ToLower`. -/
def strToLower (s : Str) : Str := s.map goLowerChar

/-- Go `strings.ToUpper`. -/
def strToUpper (s : Str) : Str := s.map goUpperChar

/-- Go `strings.HasPrefix s p`. -/
def strHasPfx (s p : Str) : Bool := p.isPrefixOf s

/-- An entry of the tree: the slice of words stored for one key. -/
abbrev Entry := List Str

/-- The `tree map[string][]string` field of `StaticSearchTree`. -/
abbrev Tree := List (Str × Entry)

/-- Go map lookup `tree[k]` (with the `exists` flag as `Option`). -/
def mapLookup : Tree → Str → Option Entry
  | [], _ => none
  | (k, v) :: t, q => if k = q then some v else mapLookup t q

/-- Go map assignment `tree[k] = v`: replace the binding if present, else add it. -/
def mapInsert : Tree → Str → Entry → Tree
  | [], k, v => [(k, v)]
  | (k', v') :: t, k, v => if k' = k then (k, v) :: t else (k', v') :: mapInsert t k v

/-- The seen-map loop shared by both halves of `mergeDeduplicate`: append each
item of the second argument to `result` unless it was already appended. -/
def dedupAppend (result : List Str) : List Str → List Str
  | [] => result
  | item :: rest =>
    if item ∈ result then dedupAppend result rest
    else dedupAppend (result ++ [item]) rest

/-- Go `mergeDeduplicate`: run the seen-map loop over `slice1`, then `slice2`. -/
def mergeDeduplicate (slice1 slice2 : List Str) : List Str :=
  dedupAppend (dedupAppend [] slice1) slice2

/-- The match-scan inner loop of `build`: all words whose lower-cased form
starts with the given key. -/
def matchesOf (words : List Str) (key : Str) : List Str :=
  words.filter (fun candidate => strHasPfx (strToLower candidate) key)

/-- The body of `build`'s inner loop for one key: compute the matches and
either store them or merge them into the existing entry. -/
def buildStep (words : List Str) (tree : Tree) (key : Str) : Tree :=
  let ms := matchesOf words key
  match mapLookup tree key with
  | some existing => mapInsert tree key (mergeDeduplicate existing ms)
  | none => mapInsert tree key ms

/-- The keys generated by one word: `strings.ToLower(word[:i])` for `i = 1 .. len(word)`. -/
def pfxKeys (word : Str) : List Str :=
  (List.range word.length).map (fun i => strToLower (word.take (i + 1)))

/-- Go `sort.Strings` (ascending lexicographic). -/
def sortStrings (words : List Str) : List Str := List.insertionSort (· ≤ ·) words

/-- The two nested loops of `build`, run on the already-sorted slice. -/
def buildSorted (words : List Str) : Tree :=
  words.foldl (fun tree word => (pfxKeys word).foldl (buildStep words) tree) []

/-- Go `build`: sort the words, then populate the tree. -/
def build (words : List Str) : Tree := buildSorted (sortStrings words)

/-- Go `NewStaticSearchTree`, with the in-place mutation made explicit: the
result is the built tree together with the final contents of the caller's
`words` slice (which `sort.Strings` sorted in place). -/
def NewStaticSearchTree (words : List Str) : Tree × List Str :=
  (buildSorted (sortStrings words), sortStrings words)

/-- Go `Search`: lower-case the query and look it up; the defensive copy is
the identity in this pure model. -/
def Search (tree : Tree) (query : Str) : List Str :=
  match mapLookup tree (strToLower query) with
  | some ms => ms
  | none => []

/-- The Go slice expression `l[:limit]`: defined (as `some`) exactly when
`0 ≤ limit ≤ len(l)`; `none` models the run-time panic outside that range. -/
def goSlice (l : List Str) (limit : Int) : Option (List Str) :=
  if 0 ≤ limit ∧ limit ≤ (l.length : Int) then some (l.take limit.toNat) else none

/-- Go `SearchWithLimit`: return the matches when they fit in `limit`,
otherwise the slice `matches[:limit]`. -/
def SearchWithLimit (tree : Tree) (query : Str) (limit : Int) : Option (List Str) :=
  let ms := Search tree query
  if (ms.length : Int) ≤ limit then some ms else goSlice ms limit

/-- Go `Size`: the number of keys of the tree map. -/
def Size (tree : Tree) : Nat := tree.length

/-! ### Character-level case-folding lemmas -/

theorem toNat_ofNat_valid (n : Nat) (h : n < 55296) : (Char.ofNat n).toNat = n := by
  unfold Char.ofNat
  rw [dif_pos (Or.inl h)]
  rfl

theorem char_toNat_inj {a b : Char} (h : a.toNat = b.toNat) : a = b := by
  rw [← Char.ofNat_toNat a, ← Char.ofNat_toNat b, h]

theorem goLowerChar_toNat_of_upper (c : Char) (h1 : 65 ≤ c.toNat) (h2 : c.toNat ≤ 90) :
    (goLowerChar c).toNat = c.toNat + 32 := by
  unfold goLowerChar
  rw [if_pos ⟨h1, h2⟩]
  exact toNat_ofNat_valid _ (by omega)

theorem goLowerChar_eq_self (c : Char) (h1 : ¬ (65 ≤ c.toNat ∧ c.toNat ≤ 90))
    (h2 : c.toNat ≠ 201) (h3 : c.toNat ≠ 8490) : goLowerChar c = c := by
  unfold goLowerChar
  rw [if_neg h1, if_neg h2, if_neg h3]

theorem goLowerChar_idem (c : Char) : goLowerChar (goLowerChar c) = goLowerChar c := by
  by_cases h1 : 65 ≤ c.toNat ∧ c.toNat ≤ 90
  · have hl := goLowerChar_toNat_of_upper c h1.1 h1.2
    exact goLowerChar_eq_self _ (by omega) (by omega) (by omega)
  · by_cases h2 : c.toNat = 201
    · have he : goLowerChar c = Char.ofNat 233 := by
        unfold goLowerChar
        rw [if_neg h1, if_pos h2]
      have ht : (goLowerChar c).toNat = 233 := by
        rw [he]
        exact toNat_ofNat_valid _ (by omega)
      exact goLowerChar_eq_self _ (by omega) (by omega) (by omega)
    · by_cases h3 : c.toNat = 8490
      · have he : goLowerChar c = Char.ofNat 107 := by
          unfold goLowerChar
          rw [if_neg h1, if_neg h2, if_pos h3]
        have ht : (goLowerChar c).toNat = 107 := by
          rw [he]
          exact toNat_ofNat_valid _ (by omega)
        exact goLowerChar_eq_self _ (by omega) (by omega) (by omega)
      · have he := goLowerChar_eq_self c h1 h2 h3
        rw [he]
        exact he

theorem goLowerChar_goUpperChar_ascii (c : Char) (hc : c.toNat < 128) :
    goLowerChar (goUpperChar c) = goLowerChar c := by
  by_cases h : 97 ≤ c.toNat ∧ c.toNat ≤ 122
  · have hu : (goUpperChar c).toNat = c.toNat - 32 := by
      unfold goUpperChar
      rw [if_pos h]
      exact toNat_ofNat_valid _ (by omega)
    have hl : (goLowerChar (goUpperChar c)).toNat = (c.toNat - 32) + 32 := by
      rw [goLowerChar_toNat_of_upper _ (by omega) (by omega), hu]
    rw [goLowerChar_eq_self c (by omega) (by omega) (by omega)]
    exact char_toNat_inj (by omega)
  · have hu : goUpperChar c = c := by
      unfold goUpperChar
      rw [if_neg h, if_neg (by omega), if_neg (by omega)]
    rw [hu]

/-! ### String-level case-folding lemmas -/

theorem strToLower_strToLower (s : Str) : strToLower (strToLower s) = strToLower s := by
  simp [strToLower, Function.comp_def, goLowerChar_idem]

theorem strToLower_strToUpper_ascii (s : Str) (hs : ∀ c ∈ s, c.toNat < 128) :
    strToLower (strToUpper s) = strToLower s := by
  simp only [strToLower, strToUpper, List.map_map]
  exact List.map_congr_left (fun c hc => goLowerChar_goUpperChar_ascii c (hs c hc))

theorem length_strToLower (s : Str) : (strToLower s).length = s.length := by
  simp [strToLower]

theorem strToLower_take (s : Str) (n : Nat) :
    strToLower (s.take n) = (strToLower s).take n := by
  simp [strToLower, List.map_take]

/-! ### Association-list map lemmas -/

theorem mapLookup_mapInsert (t : Tree) (k : Str) (v : Entry) (q : Str) :
    mapLookup (mapInsert t k v) q = if k = q then some v else mapLookup t q := by
  induction t with
  | nil =>
    by_cases hq : k = q <;> simp [mapInsert, mapLookup, hq]
  | cons kv t ih =>
    obtain ⟨k', v'⟩ := kv
    by_cases h : k' = k
    · subst h
      by_cases hq : k' = q <;> simp [mapInsert, mapLookup, hq]
    · by_cases hq : k' = q
      · subst hq
        have : ¬ k = k' := fun he => h he.symm
        simp [mapInsert, mapLookup, h, this]
      · simp [mapInsert, mapLookup, h, hq, ih]

/-! ### `dedupAppend` lemmas -/

theorem dedupAppend_cons (acc : List Str) (x : Str) (xs : List Str) :
    dedupAppend acc (x :: xs) =
      if x ∈ acc then dedupAppend acc xs else dedupAppend (acc ++ [x]) xs := rfl

theorem mem_dedupAppend (l : List Str) : ∀ acc a, a ∈ dedupAppend acc l ↔ a ∈ acc ∨ a ∈ l := by
  induction l with
  | nil => intro acc a; simp [dedupAppend]
  | cons x xs ih =>
    intro acc a
    rw [dedupAppend_cons]
    by_cases h : x ∈ acc
    · rw [if_pos h, ih]
      constructor
      · rintro (ha | hx)
        · exact Or.inl ha
        · exact Or.inr (List.mem_cons_of_mem _ hx)
      · rintro (ha | hx)
        · exact Or.inl ha
        · rcases List.mem_cons.mp hx with rfl | hx'
          · exact Or.inl h
          · exact Or.inr hx'
    · rw [if_neg h, ih]
      simp [List.mem_append, List.mem_cons]
      tauto

theorem dedupAppend_sublist (l : List Str) :
    ∀ acc, ∃ s, s.Sublist l ∧ dedupAppend acc l = acc ++ s := by
  induction l with
  | nil => intro acc; exact ⟨[], List.Sublist.refl _, by simp [dedupAppend]⟩
  | cons x xs ih =>
    intro acc
    rw [dedupAppend_cons]
    by_cases h : x ∈ acc
    · obtain ⟨s, hs, he⟩ := ih acc
      exact ⟨s, hs.cons x, by rw [if_pos h, he]⟩
    · obtain ⟨s, hs, he⟩ := ih (acc ++ [x])
      refine ⟨x :: s, hs.cons₂ x, ?_⟩
      rw [if_neg h, he, List.append_assoc]
      rfl

theorem nodup_dedupAppend (l : List Str) :
    ∀ acc, acc.Nodup → (dedupAppend acc l).Nodup := by
  induction l with
  | nil => intro acc h; exact h
  | cons x xs ih =>
    intro acc hacc
    rw [dedupAppend_cons]
    by_cases h : x ∈ acc
    · rw [if_pos h]
      exact ih acc hacc
    · rw [if_neg h]
      refine ih (acc ++ [x]) ?_
      rw [List.nodup_append]
      refine ⟨hacc, List.nodup_singleton x, ?_⟩
      intro b hb hbx
      rw [List.mem_singleton] at hbx
      exact h (hbx ▸ hb)

theorem dedupAppend_eq_of_subset (l : List Str) :
    ∀ acc, (∀ x ∈ l, x ∈ acc) → dedupAppend acc l = acc := by
  induction l with
  | nil => intro acc _; rfl
  | cons x xs ih =>
    intro acc hsub
    rw [dedupAppend_cons, if_pos (hsub x (List.mem_cons_self x xs))]
    exact ih acc (fun y hy => hsub y (List.mem_cons_of_mem x hy))

theorem dedupAppend_eq_append_of_nodup (l : List Str) :
    ∀ acc, (acc ++ l).Nodup → dedupAppend acc l = acc ++ l := by
  induction l with
  | nil => intro acc _; simp [dedupAppend]
  | cons x xs ih =>
    intro acc hnd
    have hx : x ∉ acc := by
      intro hmem
      exact (List.nodup_append.mp hnd).2.2 hmem (List.mem_cons_self x xs)
    rw [dedupAppend_cons, if_neg hx, ih (acc ++ [x]) (by rwa [List.append_assoc])]
    rw [List.append_assoc]
    rfl

/-! ### `mergeDeduplicate` lemmas -/

theorem nodup_dedupAppend_nil (m : List Str) : (dedupAppend [] m).Nodup :=
  nodup_dedupAppend m [] List.nodup_nil

theorem mem_dedupAppend_nil {m : List Str} {a : Str} : a ∈ dedupAppend [] m ↔ a ∈ m := by
  rw [mem_dedupAppend]
  simp

theorem mergeDeduplicate_self (m : List Str) :
    mergeDeduplicate m m = dedupAppend [] m := by
  rw [mergeDeduplicate]
  exact dedupAppend_eq_of_subset m _ (fun x hx => mem_dedupAppend_nil.mpr hx)

theorem mergeDeduplicate_dedup_self (m : List Str) :
    mergeDeduplicate (dedupAppend [] m) m = dedupAppend [] m := by
  rw [mergeDeduplicate]
  rw [dedupAppend_eq_append_of_nodup _ [] (by simpa using nodup_dedupAppend_nil m)]
  rw [List.nil_append]
  exact dedupAppend_eq_of_subset m _ (fun x hx => mem_dedupAppend_nil.mpr hx)

/-! ### Lemmas about the generated keys -/

theorem pfxKeys_ne_nil (w : Str) (k : Str) (hk : k ∈ pfxKeys w) : k ≠ [] := by
  simp only [pfxKeys, List.mem_map, List.mem_range] at hk
  obtain ⟨i, hi, rfl⟩ := hk
  intro hnil
  have hlen : (strToLower (w.take (i + 1))).length = 0 := by rw [hnil]; rfl
  rw [length_strToLower, List.length_take] at hlen
  omega

theorem nodup_pfxKeys (w : Str) : (pfxKeys w).Nodup := by
  refine List.Nodup.map_on ?_ (List.nodup_range _)
  intro i hi j hj hij
  rw [List.mem_range] at hi hj
  have h1 : (strToLower (w.take (i + 1))).length = i + 1 := by
    simp [length_strToLower, List.length_take]
    omega
  have h2 : (strToLower (w.take (j + 1))).length = j + 1 := by
    simp [length_strToLower, List.length_take]
    omega
  rw [hij, h2] at h1
  omega

theorem mem_pfxKeys_iff (w p : Str) (hp : p ≠ []) :
    p ∈ pfxKeys w ↔ p <+: strToLower w := by
  constructor
  · intro h
    simp only [pfxKeys, List.mem_map, List.mem_range] at h
    obtain ⟨i, hi, rfl⟩ := h
    rw [strToLower_take]
    exact ⟨(strToLower w).drop (i + 1), List.take_append_drop _ _⟩
  · intro h
    obtain ⟨t, ht⟩ := h
    have hp' : 0 < p.length := List.length_pos.mpr hp
    have hlen : p.length + t.length = w.length := by
      have := congrArg List.length ht
      simpa [length_strToLower] using this
    simp only [pfxKeys, List.mem_map, List.mem_range]
    refine ⟨p.length - 1, by omega, ?_⟩
    rw [strToLower_take]
    have hpl : p.length - 1 + 1 = p.length := by omega
    rw [hpl, ← ht, List.take_left]

/-- The number of occurrences of one key in a key list (the number of times
`build` processes that key). -/
def keyCount (p : Str) : List Str → Nat
  | [] => 0
  | k :: ks => (if k = p then 1 else 0) + keyCount p ks

theorem keyCount_append (p : Str) (ks₁ ks₂ : List Str) :
    keyCount p (ks₁ ++ ks₂) = keyCount p ks₁ + keyCount p ks₂ := by
  induction ks₁ with
  | nil => simp [keyCount]
  | cons k ks ih => simp [keyCount, ih]; omega

theorem keyCount_eq_zero (p : Str) (ks : List Str) (h : p ∉ ks) : keyCount p ks = 0 := by
  induction ks with
  | nil => rfl
  | cons k ks ih =>
    rw [keyCount, if_neg (fun he => h (by rw [← he]; exact List.mem_cons_self k ks))]
    simpa using ih (fun hm => h (List.mem_cons_of_mem k hm))

theorem keyCount_eq_one (p : Str) (ks : List Str) (hnd : ks.Nodup) (hm : p ∈ ks) :
    keyCount p ks = 1 := by
  induction ks with
  | nil => cases hm
  | cons k ks ih =>
    rcases List.mem_cons.mp hm with rfl | hm'
    · rw [keyCount, if_pos rfl, keyCount_eq_zero p ks (List.nodup_cons.mp hnd).1]
    · have hk : k ≠ p := fun he => (List.nodup_cons.mp hnd).1 (by rw [he]; exact hm')
      rw [keyCount, if_neg hk, ih (List.nodup_cons.mp hnd).2 hm']

theorem count_pfxKeys (w p : Str) (hp : p ≠ []) :
    keyCount p (pfxKeys w) = if strHasPfx (strToLower w) p then 1 else 0 := by
  by_cases h : p <+: strToLower w
  · rw [if_pos (by simp [strHasPfx, h])]
    exact keyCount_eq_one p _ (nodup_pfxKeys w) ((mem_pfxKeys_iff w p hp).mpr h)
  · rw [if_neg (by simp [strHasPfx, h])]
    exact keyCount_eq_zero p _ (fun hm => h ((mem_pfxKeys_iff w p hp).mp hm))

/-- All keys processed by `build`'s nested loops, in processing order. -/
def allKeys (words : List Str) : List Str := words.flatMap pfxKeys

theorem count_allKeys (ws : List Str) (p : Str) (hp : p ≠ []) :
    keyCount p (allKeys ws) = (matchesOf ws p).length := by
  induction ws with
  | nil => simp [allKeys, matchesOf, keyCount]
  | cons w ws ih =>
    rw [allKeys, List.flatMap_cons, keyCount_append, ← allKeys, ih, count_pfxKeys w p hp]
    simp only [matchesOf, List.filter_cons]
    by_cases h : strHasPfx (strToLower w) p
    · simp [h]
      omega
    · simp [h]

theorem count_allKeys_nil (ws : List Str) : keyCount ([] : Str) (allKeys ws) = 0 := by
  refine keyCount_eq_zero _ _ ?_
  intro hmem
  rw [allKeys, List.mem_flatMap] at hmem
  obtain ⟨w, _, hk⟩ := hmem
  exact pfxKeys_ne_nil w [] hk rfl

/-! ### The fold invariant and the closed form of the built tree -/

theorem foldl_buildStep_flat (base : List Str) (ws : List Str) :
    ∀ t : Tree, ws.foldl (fun tree word => (pfxKeys word).foldl (buildStep base) tree) t
      = (allKeys ws).foldl (buildStep base) t := by
  induction ws with
  | nil => intro t; rfl
  | cons w ws ih =>
    intro t
    rw [List.foldl_cons, ih]
    simp only [allKeys, List.flatMap_cons, List.foldl_append]

theorem buildSorted_eq (ws : List Str) :
    buildSorted ws = (allKeys ws).foldl (buildStep ws) [] := by
  rw [buildSorted]
  exact foldl_buildStep_flat ws ws []

theorem mapLookup_foldl (base : List Str) (ks : List Str) (p : Str) :
    mapLookup (ks.foldl (buildStep base) []) p =
      if keyCount p ks = 0 then none
      else if keyCount p ks = 1 then some (matchesOf base p)
      else some (dedupAppend [] (matchesOf base p)) := by
  induction ks using List.reverseRecOn with
  | nil => simp [mapLookup, keyCount]
  | append_singleton ks k ih =>
    rw [List.foldl_append, List.foldl_cons, List.foldl_nil]
    by_cases hpk : k = p
    · subst hpk
      have hcount : keyCount k (ks ++ [k]) = keyCount k ks + 1 := by
        simp [keyCount_append, keyCount]
      rcases Nat.lt_or_ge (keyCount k ks) 1 with h0 | h1
      · have h0' : keyCount k ks = 0 := by omega
        have hT : mapLookup (List.foldl (buildStep base) [] ks) k = none := by
          rw [ih, if_pos h0']
        simp only [buildStep, hT]
        rw [mapLookup_mapInsert, if_pos rfl, hcount, h0']
        simp
      · rcases Nat.lt_or_ge (keyCount k ks) 2 with h1' | h2
        · have h1'' : keyCount k ks = 1 := by omega
          have hT : mapLookup (List.foldl (buildStep base) [] ks) k
              = some (matchesOf base k) := by
            rw [ih, if_neg (by omega), if_pos h1'']
          simp only [buildStep, hT]
          rw [mergeDeduplicate_self, mapLookup_mapInsert, if_pos rfl, hcount, h1'']
          simp
        · have hT : mapLookup (List.foldl (buildStep base) [] ks) k
              = some (dedupAppend [] (matchesOf base k)) := by
            rw [ih, if_neg (by omega), if_neg (by omega)]
          simp only [buildStep, hT]
          rw [mergeDeduplicate_dedup_self, mapLookup_mapInsert, if_pos rfl, hcount]
          rw [if_neg (by omega), if_neg (by omega)]
    · have hcount : keyCount p (ks ++ [k]) = keyCount p ks := by
        simp [keyCount_append, keyCount, hpk]
      cases hT : mapLookup (List.foldl (buildStep base) [] ks) k
      · simp only [buildStep, hT]
        rw [mapLookup_mapInsert, if_neg hpk, hcount, ih]
      · simp only [buildStep, hT]
        rw [mapLookup_mapInsert, if_neg hpk, hcount, ih]

theorem lookup_build (ws : List Str) (p : Str) (hp : p ≠ []) :
    mapLookup (build ws) p =
      if matchesOf (sortStrings ws) p = [] then none
      else some (dedupAppend [] (matchesOf (sortStrings ws) p)) := by
  rw [build, buildSorted_eq, mapLookup_foldl, count_allKeys _ _ hp]
  rcases hm : matchesOf (sortStrings ws) p with _ | ⟨a, _ | ⟨b, m⟩⟩
  · simp
  · simp [dedupAppend_cons, dedupAppend]
  · simp

theorem lookup_build_nil (ws : List Str) : mapLookup (build ws) [] = none := by
  rw [build, buildSorted_eq, mapLookup_foldl, count_allKeys_nil]
  simp

/-! ### The closed form of `Search` and order/duplication facts -/

theorem length_eq_zero_iff_nil {s : Str} : s.length = 0 ↔ s = [] := by
  cases s <;> simp

theorem strToLower_ne_nil {q : Str} (hq : q ≠ []) : strToLower q ≠ [] := by
  intro h
  apply hq
  have := congrArg List.length h
  rw [length_strToLower] at this
  exact length_eq_zero_iff_nil.mp this

theorem Search_build (ws : List Str) (q : Str) (hq : q ≠ []) :
    Search (build ws) q = dedupAppend [] (matchesOf (sortStrings ws) (strToLower q)) := by
  rw [Search, lookup_build ws _ (strToLower_ne_nil hq)]
  by_cases h : matchesOf (sortStrings ws) (strToLower q) = []
  · rw [h]
    simp [dedupAppend]
  · rw [if_neg h]

theorem Search_build_nil (ws : List Str) : Search (build ws) [] = [] := by
  rw [Search]
  have : strToLower [] = [] := rfl
  rw [this, lookup_build_nil]

theorem sorted_sortStrings (ws : List Str) : (sortStrings ws).Sorted (· ≤ ·) :=
  List.sorted_insertionSort _ _

theorem perm_sortStrings (ws : List Str) : (sortStrings ws).Perm ws :=
  List.perm_insertionSort _ _

theorem mem_sortStrings {ws : List Str} {w : Str} : w ∈ sortStrings ws ↔ w ∈ ws :=
  (perm_sortStrings ws).mem_iff

theorem mem_matchesOf {ws : List Str} {p a : Str} :
    a ∈ matchesOf ws p ↔ a ∈ ws ∧ strHasPfx (strToLower a) p = true := by
  simp [matchesOf, List.mem_filter]

theorem sorted_matchesOf (ws : List Str) (p : Str) :
    (matchesOf (sortStrings ws) p).Sorted (· ≤ ·) :=
  (sorted_sortStrings ws).filter _

theorem sorted_dedupAppend_nil {m : List Str} (hm : m.Sorted (· ≤ ·)) :
    (dedupAppend [] m).Sorted (· ≤ ·) := by
  obtain ⟨s, hs, he⟩ := dedupAppend_sublist m []
  rw [he, List.nil_append]
  exact hm.sublist hs

theorem take_isPfx (w : Str) (k : Nat) : strHasPfx w (w.take k) = true := by
  simp only [strHasPfx, List.isPrefixOf_iff_prefix]
  exact ⟨w.drop k, List.take_append_drop _ _⟩

/-! ### Claims -/

/-- Claim C1: completeness of the built index — for every word `w` of the input
list and every prefix length `k` with `1 ≤ k ≤ length w`, searching the index
built from that list for `lower(w[0:k])` returns a sequence containing `w`. -/
theorem search_completeness (ws : List Str) (w : Str) (k : Nat)
    (hw : w ∈ ws) (hk1 : 1 ≤ k) (hk2 : k ≤ w.length) :
    w ∈ Search (build ws) (strToLower (w.take k)) := by
  have hqnil : strToLower (w.take k) ≠ [] := by
    intro h
    have hlen := congrArg List.length h
    rw [length_strToLower, List.length_take] at hlen
    simp only [List.length_nil] at hlen
    omega
  rw [Search_build ws _ hqnil, mem_dedupAppend_nil, strToLower_strToLower, mem_matchesOf]
  refine ⟨mem_sortStrings.mpr hw, ?_⟩
  rw [strToLower_take]
  exact take_isPfx (strToLower w) k

/-- Witness for C1 at a concrete input. -/
theorem search_completeness_witness :
    strOf "app" ∈ Search (build [strOf "app"]) (strToLower ((strOf "app").take 1)) :=
  search_completeness [strOf "app"] (strOf "app") 1 (by decide) (by decide) (by decide)

/-- Claim C2, counterexample: on input `["apple","app","application"]` the claim
"`Search "app"` returns `{"app","apple","application"}` and `Size` returns 5"
is false, because `Size` returns 12 (the twelve distinct prefixes a, ap, app,
appl, apple, appli, applic, applica, applicat, applicati, applicatio,
application). -/
theorem scenario_counterexample :
    ¬ (Search (build [strOf "apple", strOf "app", strOf "application"]) (strOf "app")
          = [strOf "app", strOf "apple", strOf "application"]
        ∧ Size (build [strOf "apple", strOf "app", strOf "application"]) = 5) := by
  decide

/-- Claim C2, amended: on input `["apple","app","application"]`, `Search "app"`
returns exactly `["app","apple","application"]` and `Size` returns 12. -/
theorem scenario_app_size :
    Search (build [strOf "apple", strOf "app", strOf "application"]) (strOf "app")
      = [strOf "app", strOf "apple", strOf "application"]
    ∧ Size (build [strOf "apple", strOf "app", strOf "application"]) = 12 := by
  decide

/-- Claim C3: for every index, query and non-negative limit, `SearchWithLimit`
returns (without error) exactly the first `min(limit, n)` elements of `Search`'s
result, in the same order; in particular limit 0 yields the empty sequence and a
limit exceeding the match count yields the full result. -/
theorem searchWithLimit_truncates (ws : List Str) (q : Str) (L : Int) (hL : 0 ≤ L) :
    SearchWithLimit (build ws) q L
      = some ((Search (build ws) q).take (min L.toNat (Search (build ws) q).length)) := by
  simp only [SearchWithLimit]
  by_cases h : ((Search (build ws) q).length : Int) ≤ L
  · rw [if_pos h]
    have hmin : min L.toNat (Search (build ws) q).length = (Search (build ws) q).length := by
      omega
    rw [hmin, List.take_length]
  · rw [if_neg h, goSlice, if_pos ⟨hL, by omega⟩]
    have hmin : min L.toNat (Search (build ws) q).length = L.toNat := by omega
    rw [hmin]

/-- Witness for C3 at a concrete input. -/
theorem searchWithLimit_truncates_witness :
    SearchWithLimit (build [strOf "ab"]) (strOf "a") 1
      = some ((Search (build [strOf "ab"]) (strOf "a")).take
          (min (Int.toNat 1) (Search (build [strOf "ab"]) (strOf "a")).length)) :=
  searchWithLimit_truncates [strOf "ab"] (strOf "a") 1 (by decide)

/-- Claim C4: dedup invariant — if a word occurs more than once in the input,
every entry of the built index containing that word contains it exactly once. -/
theorem dedup_invariant (ws : List Str) (w p : Str) (e : Entry)
    ( _hdup : 1 < keyCount w ws) (hlk : mapLookup (build ws) p = some e)
    (hw : w ∈ e) : keyCount w e = 1 := by
  by_cases hp : p = []
  · rw [hp, lookup_build_nil] at hlk
    cases hlk
  · rw [lookup_build ws p hp] at hlk
    by_cases hm : matchesOf (sortStrings ws) p = []
    · rw [if_pos hm] at hlk
      cases hlk
    · rw [if_neg hm] at hlk
      have he : e = dedupAppend [] (matchesOf (sortStrings ws) p) := (Option.some.inj hlk).symm
      rw [he]
      exact keyCount_eq_one w _ (nodup_dedupAppend_nil _) (he ▸ hw)

/-- Witness for C4 at a concrete input. -/
theorem dedup_invariant_witness : keyCount (strOf "apple") [strOf "apple"] = 1 :=
  dedup_invariant [strOf "apple", strOf "apple"] (strOf "apple") (strOf "a") [strOf "apple"]
    (by decide) (by decide) (by decide)

/-- Claim C5: determinism / order-independence of build — two input lists with
the same set of words (whatever the order and duplicate multiplicities) give
indexes with identical entries for identical keys. -/
theorem build_deterministic (ws₁ ws₂ : List Str)
    (h : ∀ w, w ∈ ws₁ ↔ w ∈ ws₂) (p : Str) :
    mapLookup (build ws₁) p = mapLookup (build ws₂) p := by
  by_cases hp : p = []
  · rw [hp, lookup_build_nil, lookup_build_nil]
  · rw [lookup_build ws₁ p hp, lookup_build ws₂ p hp]
    have hmem : ∀ a, a ∈ matchesOf (sortStrings ws₁) p ↔ a ∈ matchesOf (sortStrings ws₂) p := by
      intro a
      rw [mem_matchesOf, mem_matchesOf, mem_sortStrings, mem_sortStrings, h a]
    have hD : dedupAppend [] (matchesOf (sortStrings ws₁) p)
        = dedupAppend [] (matchesOf (sortStrings ws₂) p) := by
      exact List.eq_of_perm_of_sorted
        ((List.perm_ext_iff_of_nodup (nodup_dedupAppend_nil _)
          (nodup_dedupAppend_nil _)).mpr
          (fun a => by rw [mem_dedupAppend_nil, mem_dedupAppend_nil]; exact hmem a))
        (sorted_dedupAppend_nil (sorted_matchesOf ws₁ p))
        (sorted_dedupAppend_nil (sorted_matchesOf ws₂ p))
    by_cases hm : matchesOf (sortStrings ws₁) p = []
    · have hm₂ : matchesOf (sortStrings ws₂) p = [] := by
        rw [List.eq_nil_iff_forall_not_mem] at hm ⊢
        exact fun a ha => hm a ((hmem a).mpr ha)
      rw [if_pos hm, if_pos hm₂]
    · have hm₂ : matchesOf (sortStrings ws₂) p ≠ [] := by
        intro hnil
        apply hm
        rw [List.eq_nil_iff_forall_not_mem] at hnil ⊢
        exact fun a ha => hnil a ((hmem a).mp ha)
      rw [if_neg hm, if_neg hm₂, hD]

/-- Witness for C5 at a concrete input. -/
theorem build_deterministic_witness :
    mapLookup (build [strOf "a", strOf "a"]) (strOf "a")
      = mapLookup (build [strOf "a"]) (strOf "a") :=
  build_deterministic [strOf "a", strOf "a"] [strOf "a"] (fun w => by simp) (strOf "a")

/-- Claim C6, counterexample: on the index built from `["sa"]` and the query
ſ (U+017F), `Search` of the upper-cased query differs from `Search` of the
query itself — upper-casing gives S, whose lowered key s reaches the stored
entry `["sa"]`, while the query's own key ſ reaches nothing.  So the three-way
identity of the original claim fails. -/
theorem case_insensitive_counterexample :
    ¬ (Search (build [strOf "sa"]) (strToUpper ['ſ']) = Search (build [strOf "sa"]) ['ſ']
        ∧ Search (build [strOf "sa"]) (strToLower ['ſ']) = Search (build [strOf "sa"]) ['ſ']) := by
  decide

/-- Claim C6, amended: for every index and query, `Search` of the lower-cased
query returns the same sequence as `Search` of the query (Go's simple
lower-casing is idempotent); `Search` of the upper-cased query agrees as well
whenever the query consists of ASCII characters, but not for arbitrary Unicode
queries (see the counterexample ſ). -/
theorem search_case_insensitive_amended (ws : List Str) (q : Str) :
    ((∀ c ∈ q, c.toNat < 128) → Search (build ws) (strToUpper q) = Search (build ws) q)
    ∧ Search (build ws) (strToLower q) = Search (build ws) q := by
  constructor
  · intro hq
    simp only [Search]
    rw [strToLower_strToUpper_ascii q hq]
  · simp only [Search]
    rw [strToLower_strToLower]

/-- Witness for the amended C6 at a concrete input. -/
theorem search_case_insensitive_amended_witness :
    Search (build [strOf "Ab"]) (strToUpper (strOf "aB")) = Search (build [strOf "Ab"]) (strOf "aB") :=
  (search_case_insensitive_amended [strOf "Ab"] (strOf "aB")).1 (by decide)

/-- Claim C7: ascending result order — every `Search` result on a built index
is sorted in ascending lexicographic order of the stored word values. -/
theorem search_sorted (ws : List Str) (q : Str) :
    (Search (build ws) q).Sorted (· ≤ ·) := by
  by_cases hq : q = []
  · rw [hq, Search_build_nil]
    exact List.sorted_nil
  · rw [Search_build ws q hq]
    exact sorted_dedupAppend_nil (sorted_matchesOf ws _)

/-- Claim C8: empty-query policy — on every built index, searching for the
empty string returns the empty sequence, and the empty string is never a
stored key. -/
theorem empty_query_policy (ws : List Str) :
    Search (build ws) (strOf "") = [] ∧ mapLookup (build ws) (strOf "") = none := by
  constructor
  · exact Search_build_nil ws
  · exact lookup_build_nil ws

/-- Claim C9: `NewStaticSearchTree`/`build` sorts the caller-supplied words
slice in place: after construction the caller's sequence is an ascending sorted
permutation of its original contents, and in general differs from them. -/
theorem build_sorts_input_in_place :
    (∀ ws : List Str, ((NewStaticSearchTree ws).2).Perm ws
        ∧ ((NewStaticSearchTree ws).2).Sorted (· ≤ ·))
    ∧ (NewStaticSearchTree [strOf "b", strOf "a"]).2 ≠ [strOf "b", strOf "a"] := by
  refine ⟨fun ws => ⟨perm_sortStrings ws, sorted_sortStrings ws⟩, ?_⟩
  decide

/-- Claim C10: safety of the truncation in `SearchWithLimit` — for every
non-negative limit the slice expression is within bounds and the call returns
normally, while for every negative limit the slice bound is invalid (a panic)
whatever `Search` returns. -/
theorem searchWithLimit_slice_safety (ws : List Str) (q : Str) (L : Int) :
    (0 ≤ L → (SearchWithLimit (build ws) q L).isSome = true)
    ∧ (L < 0 → SearchWithLimit (build ws) q L = none) := by
  constructor
  · intro hL
    simp only [SearchWithLimit]
    by_cases h : ((Search (build ws) q).length : Int) ≤ L
    · rw [if_pos h]
      rfl
    · rw [if_neg h, goSlice, if_pos ⟨hL, by omega⟩]
      rfl
  · intro hL
    simp only [SearchWithLimit]
    rw [if_neg (by omega), goSlice, if_neg (by omega)]

/-- Witness for C10 at a concrete input. -/
theorem searchWithLimit_slice_safety_witness :
    (SearchWithLimit (build [strOf "app"]) (strOf "a") 2).isSome = true
    ∧ SearchWithLimit (build [strOf "app"]) (strOf "a") (-1) = none :=
  ⟨(searchWithLimit_slice_safety [strOf "app"] (strOf "a") 2).1 (by decide),
   (searchWithLimit_slice_safety [strOf "app"] (strOf "a") (-1)).2 (by decide)⟩

end StaticSearch
